import Mathlib

/-!
Shallow embedding of `scripts/update-xcode-team.py`.

The script reads `insurtech.xcodeproj/project.pbxproj`, and depending on its
single CLI argument (`team` or `code_sign`, default `team`) either updates or
inserts `DEVELOPMENT_TEAM` / `CODE_SIGN_STYLE` build settings, using Python
regular expressions.  We model file contents as `List Char`, and implement the
exact regular-expression patterns of the script with a small backtracking
matcher over a restricted pattern language (literals, greedy negated
single-character classes `[^c]*`, and capture-group markers), which is a
faithful implementation of Python `re` semantics for these patterns
(leftmost match, greedy star with backtracking).
-/

/-- One atom of the restricted regex language used by the script's patterns:
a literal string, a greedy `[^c]*`, or a capture-group open/close marker. -/
inductive Item where
  | lit : List Char → Item
  | nstar : Char → Item
  | gopen : Nat → Item
  | gclose : Nat → Item
deriving DecidableEq

/-- Number of leading characters different from `ch`: the maximal number of
characters that `[^ch]*` can consume from `s`. -/
def countNot (ch : Char) : List Char → Nat
  | [] => 0
  | x :: t => if x = ch then 0 else countNot ch t + 1

/-- Greedy choice: try `f n`, then `f (n-1)`, ..., down to `f 0`, returning the
first success.  This is Python's greedy-star backtracking order. -/
def greedyFirst (f : Nat → Option α) : Nat → Option α
  | 0 => f 0
  | n + 1 =>
    match f (n + 1) with
    | some r => some r
    | none => greedyFirst f n

/-- Group-position environment: association list from group number to a
position in the subject string. -/
abbrev GPos := List (Nat × Nat)

/-- Backtracking matcher for a pattern (list of items) against content `c`
starting at absolute position `pos`.  Returns the end position of the match
together with the recorded group-start and group-end positions. -/
def matchFrom (c : List Char) : List Item → Nat → GPos → GPos →
    Option (Nat × GPos × GPos)
  | [], pos, gs, ge => some (pos, gs, ge)
  | Item.lit l :: rest, pos, gs, ge =>
    if l.isPrefixOf (c.drop pos) then matchFrom c rest (pos + l.length) gs ge
    else none
  | Item.nstar ch :: rest, pos, gs, ge =>
    greedyFirst (fun i => matchFrom c rest (pos + i) gs ge)
      (countNot ch (c.drop pos))
  | Item.gopen n :: rest, pos, gs, ge => matchFrom c rest pos ((n, pos) :: gs) ge
  | Item.gclose n :: rest, pos, gs, ge => matchFrom c rest pos gs ((n, pos) :: ge)

/-- Attempt a match of the whole pattern at position `pos`. -/
def runMatch (items : List Item) (c : List Char) (pos : Nat) :
    Option (Nat × GPos × GPos) :=
  matchFrom c items pos [] []

/-- `re.search` scan: try positions `pos, pos+1, ...` (at most `fuel` further
positions), returning the leftmost match as (start, end, groupStarts,
groupEnds). -/
def searchAux (items : List Item) (c : List Char) :
    Nat → Nat → Option (Nat × Nat × GPos × GPos)
  | 0, pos => (runMatch items c pos).map (fun r => (pos, r))
  | fuel + 1, pos =>
    match runMatch items c pos with
    | some r => some (pos, r)
    | none => searchAux items c fuel (pos + 1)

/-- `re.search(pattern, content)`: leftmost match over positions
`0 .. content.length`. -/
def reSearch (items : List Item) (c : List Char) :
    Option (Nat × Nat × GPos × GPos) :=
  searchAux items c c.length 0

/-- Python substring containment test (`needle in hay`). -/
def containsSub (needle : List Char) : List Char → Bool
  | [] => needle.isEmpty
  | x :: t => needle.isPrefixOf (x :: t) || containsSub needle t

/-- Recorded position of group `n` (defaults to 0; every group of the
script's patterns is always recorded on a successful match). -/
def gpos (l : GPos) (n : Nat) : Nat := ((l.lookup n).getD 0)

/-- `match.group n` as a slice of the content. -/
def groupSlice (c : List Char) (gs ge : GPos) (n : Nat) : List Char :=
  (c.take (gpos ge n)).drop (gpos gs n)

/-! ### The script's string and pattern constants -/

/-- `13B07F951A680F5B00A75B9A /* Release */ = {` — the literal head of all
three regular expressions of the script. -/
def litRel : List Char := "13B07F951A680F5B00A75B9A /* Release */ = \x7b".data

/-- `buildSettings = {` literal. -/
def litBS : List Char := "buildSettings = \x7b".data

/-- `IPHONEOS_DEPLOYMENT_TARGET = 15.1;` — insertion anchor of the `team`
branch. -/
def anchorIPH : List Char := "IPHONEOS_DEPLOYMENT_TARGET = 15.1;".data

/-- `DEVELOPMENT_TEAM = ` literal (head of the `re.sub` pattern). -/
def litDT : List Char := "DEVELOPMENT_TEAM = ".data

/-- The exact line `DEVELOPMENT_TEAM = <team_id>;` required by the
`code_sign` pattern (the script uses `re.escape(team_id)`, so the team id is
matched literally). -/
def dtLine (tid : List Char) : List Char := litDT ++ tid ++ ";".data

/-- Substring tested by `'DEVELOPMENT_TEAM' in ...`. -/
def devTeamKey : List Char := "DEVELOPMENT_TEAM".data

/-- Substring tested by `'CODE_SIGN_STYLE' in ...`. -/
def cssKey : List Char := "CODE_SIGN_STYLE".data

/-- Line inserted by the `team` branch:
`'\t\t\t\tDEVELOPMENT_TEAM = {team_id};\n'`. -/
def nlDT (tid : List Char) : List Char :=
  "\t\t\t\tDEVELOPMENT_TEAM = ".data ++ tid ++ ";\n".data

/-- Line inserted by the `code_sign` branch:
`'\t\t\t\tCODE_SIGN_STYLE = Manual;\n'`. -/
def nlCSS : List Char := "\t\t\t\tCODE_SIGN_STYLE = Manual;\n".data

/-- `release_pattern`: the regex
`13B07F951A680F5B00A75B9A /\* Release \*/ = \{[^}]*buildSettings = \{([^}]*)\}`. -/
def relPattern : List Item :=
  [Item.lit litRel, Item.nstar '\x7d', Item.lit litBS,
   Item.gopen 1, Item.nstar '\x7d', Item.gclose 1, Item.lit ['\x7d']]

/-- Common shape of the two four-group block patterns:
`(head [^}]* buildSettings = \{)([^}]* MID)([^}]*)(\})` with `MID` the
branch-specific middle literal. -/
def blockPattern (mid : List Char) : List Item :=
  [Item.gopen 1, Item.lit litRel, Item.nstar '\x7d', Item.lit litBS,
   Item.gclose 1,
   Item.gopen 2, Item.nstar '\x7d', Item.lit mid, Item.gclose 2,
   Item.gopen 3, Item.nstar '\x7d', Item.gclose 3,
   Item.gopen 4, Item.lit ['\x7d'], Item.gclose 4]

/-- `pattern` of the `team` insertion path. -/
def insPattern : List Item := blockPattern anchorIPH

/-- `pattern` of the `code_sign` branch (with `re.escape(team_id)`). -/
def csPattern (tid : List Char) : List Item := blockPattern (dtLine tid)

/-! ### `re.sub(r'DEVELOPMENT_TEAM = [^;]*;', f'DEVELOPMENT_TEAM = {team_id};', content)` -/

/-- One fuel unit per scan step; a match of `DEVELOPMENT_TEAM = [^;]*;`
(greedy `[^;]*` followed by `;` consumes through the first subsequent `;`)
is replaced and scanning resumes after it, exactly as `re.sub` does. -/
def subAux (tid : List Char) : Nat → List Char → List Char
  | _, [] => []
  | 0, s => s
  | fuel + 1, x :: t =>
    if litDT.isPrefixOf (x :: t) then
      match ((x :: t).drop litDT.length).findIdx? (fun ch => ch = ';') with
      | some j =>
        litDT ++ tid ++ ';' :: subAux tid fuel (((x :: t).drop litDT.length).drop (j + 1))
      | none => x :: subAux tid fuel t
    else x :: subAux tid fuel t

/-- The `re.sub` call of the `team` update path. -/
def subDevTeam (tid c : List Char) : List Char := subAux tid c.length c

/-! ### The script itself -/

/-- Result of one invocation: process exit code, printed lines, and the state
of the project file afterwards (`none` = file does not exist). -/
structure RunResult where
  exitCode : Nat
  output : List String
  file : Option (List Char)
deriving DecidableEq

def msgNotFound : String :=
  "⚠️  Project file not found: insurtech.xcodeproj/project.pbxproj"
def msgUpdated : String :=
  "✅ Updated DEVELOPMENT_TEAM in Release target configuration"
def msgAdded : String :=
  "✅ Added DEVELOPMENT_TEAM to Release target configuration"
def msgExists : String := "✅ DEVELOPMENT_TEAM already exists"
def msgNoRelease : String := "⚠️  Could not find Release target configuration"
def msgCSAdded : String :=
  "✅ Added CODE_SIGN_STYLE = Manual to Release target configuration"
def msgCSExists : String := "✅ CODE_SIGN_STYLE already exists"

/-- `release_match and 'DEVELOPMENT_TEAM' in release_match.group(1)`. -/
def relHasDT (c : List Char) : Bool :=
  match reSearch relPattern c with
  | some (_, _, gs, ge) => containsSub devTeamKey (groupSlice c gs ge 1)
  | none => false

/-- The insertion path of the `team` branch (lines 34-49 of the script). -/
def teamInsert (tid c : List Char) : RunResult :=
  match reSearch insPattern c with
  | some (_, _, gs, ge) =>
    if containsSub devTeamKey (groupSlice c gs ge 3) then
      ⟨0, [msgExists], some c⟩
    else
      ⟨0, [msgAdded],
        some (c.take (gpos ge 2) ++ nlDT tid ++ groupSlice c gs ge 3 ++
          c.drop (gpos ge 3))⟩
  | none => ⟨1, [msgNoRelease], some c⟩

/-- The `team` branch (lines 21-49). -/
def runTeam (tid c : List Char) : RunResult :=
  if relHasDT c then ⟨0, [msgUpdated], some (subDevTeam tid c)⟩
  else teamInsert tid c

/-- The `code_sign` branch (lines 51-67). -/
def runCodeSign (tid c : List Char) : RunResult :=
  match reSearch (csPattern tid) c with
  | some (_, _, gs, ge) =>
    if containsSub cssKey (groupSlice c gs ge 3) then
      ⟨0, [msgCSExists], some c⟩
    else
      ⟨0, [msgCSAdded],
        some (c.take (gpos ge 2) ++ nlCSS ++ groupSlice c gs ge 3 ++
          c.drop (gpos ge 3))⟩
  | none => ⟨1, [msgNoRelease], some c⟩

/-- One invocation of the script with team id `tid`, action string `action`,
and project-file state `file`.  A `none` file models a missing
`insurtech.xcodeproj/project.pbxproj`; on the `sys.exit(1)` paths the final
write never runs, so the file keeps its previous content. -/
def runScript (tid : List Char) (action : String) (file : Option (List Char)) :
    RunResult :=
  match file with
  | none => ⟨1, [msgNotFound], none⟩
  | some c =>
    if action = "team" then runTeam tid c
    else if action = "code_sign" then runCodeSign tid c
    else ⟨0, [], some c⟩

/-- `action = sys.argv[1] if len(sys.argv) > 1 else 'team'` (`argv` includes
the program name at index 0). -/
def actionOf (argv : List String) : String := argv.getD 1 "team"

/-- The script as invoked with a full argument vector. -/
def runWithArgv (tid : List Char) (argv : List String)
    (file : Option (List Char)) : RunResult :=
  runScript tid (actionOf argv) file

/-- `team_id = os.environ.get('IOS_TEAM_ID', '')`. -/
def teamIdOf (env : Option (List Char)) : List Char := env.getD []

/-- A project file whose Release block lacks `DEVELOPMENT_TEAM` while a
later, unrelated part of the file carries `DEVELOPMENT_TEAM = X;`. -/
def cexC1 : List Char :=
  litRel ++ litBS ++ anchorIPH ++ "\x7d\x7dDEVELOPMENT_TEAM = X;".data

set_option maxRecDepth 40000

example :
    runScript "T".data "team"
      (some (litRel ++ litBS ++ anchorIPH ++ "\x7d\x7d".data)) =
    ⟨0, [msgAdded],
      some (litRel ++ litBS ++ anchorIPH ++ nlDT "T".data ++ "\x7d\x7d".data)⟩ := by
  decide

example : runScript "T".data "team" (some "x".data) =
    ⟨1, [msgNoRelease], some "x".data⟩ := by decide

example : subDevTeam "T".data "a DEVELOPMENT_TEAM = XY; b DEVELOPMENT_TEAM = Z; c".data
    = "a DEVELOPMENT_TEAM = T; b DEVELOPMENT_TEAM = T; c".data := by decide

/-! ### Generic lemmas about the matcher components -/

theorem greedyFirst_target {α : Type} (f : Nat → Option α) (r : α) :
    ∀ k t : Nat, t ≤ k → (∀ i, t < i → i ≤ k → f i = none) → f t = some r →
    greedyFirst f k = some r := by
  intro k
  induction k with
  | zero =>
    intro t ht _ hyes
    have : t = 0 := Nat.le_zero.mp ht
    subst this
    simpa [greedyFirst] using hyes
  | succ n ih =>
    intro t ht hfail hyes
    by_cases h : t = n + 1
    · subst h
      simp [greedyFirst, hyes]
    · have h1 : f (n + 1) = none := hfail _ (by omega) (Nat.le_refl _)
      simp only [greedyFirst, h1]
      exact ih t (by omega) (fun i hi hle => hfail i hi (by omega)) hyes

theorem countNot_append (ch : Char) (xs ys : List Char)
    (h : ∀ x ∈ xs, x ≠ ch) : countNot ch (xs ++ ch :: ys) = xs.length := by
  induction xs with
  | nil => simp [countNot]
  | cons x t ih =>
    have hx : x ≠ ch := h x (List.mem_cons_self x t)
    have ht : ∀ y ∈ t, y ≠ ch := fun y hy => h y (List.mem_cons_of_mem x hy)
    simp [countNot, hx, ih ht]

theorem drop_add_of {c : List Char} {p : Nat} {a b : List Char}
    (h : c.drop p = a ++ b) : c.drop (p + a.length) = b := by
  rw [← List.drop_drop, h, List.drop_left]

theorem isPrefixOf_append_left (a b : List Char) :
    a.isPrefixOf (a ++ b) = true := by
  rw [List.isPrefixOf_iff_prefix]
  exact List.prefix_append a b

theorem isPrefixOf_of_eq_append {c : List Char} {p : Nat} {a b : List Char}
    (h : c.drop p = a ++ b) : a.isPrefixOf (c.drop p) = true := by
  rw [h]; exact isPrefixOf_append_left a b

/-- Slice extraction: if the suffix at `p` starts with `b`, then the slice
`[p, p + b.length)` is `b`. -/
theorem slice_of_drop {c : List Char} {p : Nat} {b d : List Char}
    (h : c.drop p = b ++ d) : (c.take (p + b.length)).drop p = b := by
  rw [List.drop_take, h]
  have : p + b.length - p = b.length := by omega
  rw [this, List.take_left]

theorem containsSub_append_right {n : List Char} (a : List Char)
    {b : List Char} (h : containsSub n b = true) :
    containsSub n (a ++ b) = true := by
  induction a with
  | nil => simpa using h
  | cons x t ih => simp [containsSub, ih]

theorem containsSub_of_prefix {n s : List Char}
    (h : n.isPrefixOf s = true) : containsSub n s = true := by
  cases s with
  | nil =>
    rw [List.isPrefixOf_iff_prefix] at h
    have := List.prefix_nil.mp h
    simp [this, containsSub, List.isEmpty]
  | cons x t => simp [containsSub, h]

theorem containsSub_append_left {n a : List Char} (b : List Char)
    (h : containsSub n a = true) : containsSub n (a ++ b) = true := by
  induction a with
  | nil =>
    simp [containsSub, List.isEmpty_iff] at h
    subst h
    apply containsSub_of_prefix
    rw [List.isPrefixOf_iff_prefix]
    exact List.nil_prefix
  | cons x t ih =>
    simp only [containsSub, Bool.or_eq_true] at h
    rcases h with h | h
    · apply containsSub_of_prefix
      rw [List.isPrefixOf_iff_prefix] at h ⊢
      exact h.trans (List.prefix_append _ _)
    · simp [containsSub, ih h]

theorem containsSub_false_of_append_right {n a b : List Char}
    (h : containsSub n (a ++ b) = false) : containsSub n b = false := by
  cases hb : containsSub n b with
  | false => rfl
  | true =>
    rw [containsSub_append_right a hb] at h
    exact absurd h (by simp)

theorem matchFrom_lit_pos {c : List Char} {l : List Char} {rest : List Item}
    {pos : Nat} {gs ge : GPos} (h : l.isPrefixOf (c.drop pos) = true) :
    matchFrom c (Item.lit l :: rest) pos gs ge =
      matchFrom c rest (pos + l.length) gs ge := by
  simp [matchFrom, h]

theorem matchFrom_lit_neg {c : List Char} {l : List Char} {rest : List Item}
    {pos : Nat} {gs ge : GPos} (h : l.isPrefixOf (c.drop pos) = false) :
    matchFrom c (Item.lit l :: rest) pos gs ge = none := by
  simp [matchFrom, h]

theorem matchFrom_nstar {c : List Char} {ch : Char} {rest : List Item}
    {pos : Nat} {gs ge : GPos} :
    matchFrom c (Item.nstar ch :: rest) pos gs ge =
      greedyFirst (fun i => matchFrom c rest (pos + i) gs ge)
        (countNot ch (c.drop pos)) := rfl

theorem matchFrom_gopen {c : List Char} {n : Nat} {rest : List Item}
    {pos : Nat} {gs ge : GPos} :
    matchFrom c (Item.gopen n :: rest) pos gs ge =
      matchFrom c rest pos ((n, pos) :: gs) ge := rfl

theorem matchFrom_gclose {c : List Char} {n : Nat} {rest : List Item}
    {pos : Nat} {gs ge : GPos} :
    matchFrom c (Item.gclose n :: rest) pos gs ge =
      matchFrom c rest pos gs ((n, pos) :: ge) := rfl

theorem matchFrom_nil {c : List Char} {pos : Nat} {gs ge : GPos} :
    matchFrom c [] pos gs ge = some (pos, gs, ge) := rfl

theorem not_mem_imp_ne {ch : Char} {l : List Char} (h : ch ∉ l) :
    ∀ x ∈ l, x ≠ ch := fun _ hx he => h (he ▸ hx)

theorem drop_add_index {c : List Char} {p : Nat} (i : Nat) {r : List Char}
    (h : c.drop p = r) : c.drop (p + i) = r.drop i := by
  rw [← List.drop_drop, h]

theorem searchAux_finds (items : List Item) (c : List Char) (p0 : Nat)
    (r : Nat × GPos × GPos) :
    ∀ fuel pos, pos ≤ p0 → p0 ≤ pos + fuel →
    (∀ q, pos ≤ q → q < p0 → runMatch items c q = none) →
    runMatch items c p0 = some r →
    searchAux items c fuel pos = some (p0, r) := by
  intro fuel
  induction fuel with
  | zero =>
    intro pos h1 h2 _ hyes
    have : pos = p0 := by omega
    subst this
    simp [searchAux, hyes]
  | succ n ih =>
    intro pos h1 h2 hfail hyes
    by_cases h : pos = p0
    · subst h
      simp [searchAux, hyes]
    · have hq : runMatch items c pos = none := hfail pos (Nat.le_refl _) (by omega)
      simp only [searchAux, hq]
      exact ih (pos + 1) (by omega) (by omega)
        (fun q hq1 hq2 => hfail q (by omega) hq2) hyes

/-- Forward computation of the `release_pattern` match at the Release block
header, on content of the canonical single-block shape
`P ++ header ++ M ++ "buildSettings = {" ++ R ++ "}" ++ Q`. -/
theorem relMatch_at (P M R Q : List Char)
    (hM : '\x7d' ∉ M) (hR : '\x7d' ∉ R)
    (hBSU : ∀ i, i ≤ M.length + litBS.length + R.length →
      litBS.isPrefixOf ((M ++ litBS ++ R ++ '\x7d' :: Q).drop i) = true →
      i = M.length) :
    runMatch relPattern (P ++ litRel ++ M ++ litBS ++ R ++ '\x7d' :: Q)
      P.length =
    some (P.length + litRel.length + M.length + litBS.length + R.length + 1,
      [(1, P.length + litRel.length + M.length + litBS.length)],
      [(1, P.length + litRel.length + M.length + litBS.length + R.length)]) := by
  set c := P ++ litRel ++ M ++ litBS ++ R ++ '\x7d' :: Q with hc
  have hce : c = P ++ (litRel ++ (M ++ (litBS ++ (R ++ '\x7d' :: Q)))) := by
    rw [hc]; simp [List.append_assoc]
  have hd0 : c.drop P.length = litRel ++ (M ++ (litBS ++ (R ++ '\x7d' :: Q))) := by
    rw [hce]; exact List.drop_left _ _
  have hd1 : c.drop (P.length + litRel.length) =
      M ++ (litBS ++ (R ++ '\x7d' :: Q)) := drop_add_of hd0
  have hd2 : c.drop (P.length + litRel.length + M.length) =
      litBS ++ (R ++ '\x7d' :: Q) := drop_add_of hd1
  have hd3 : c.drop (P.length + litRel.length + M.length + litBS.length) =
      R ++ '\x7d' :: Q := drop_add_of hd2
  have hd4 : c.drop (P.length + litRel.length + M.length + litBS.length +
      R.length) = ['\x7d'] ++ Q := by
    rw [drop_add_of hd3]; rfl
  have hassoc : M ++ (litBS ++ (R ++ '\x7d' :: Q)) =
      M ++ litBS ++ R ++ '\x7d' :: Q := by simp [List.append_assoc]
  have hnb : ∀ x ∈ M ++ litBS ++ R, x ≠ '\x7d' := by
    intro x hx
    simp only [List.mem_append] at hx
    rcases hx with (hx | hx) | hx
    · exact not_mem_imp_ne hM x hx
    · exact not_mem_imp_ne (by decide : '\x7d' ∉ litBS) x hx
    · exact not_mem_imp_ne hR x hx
  simp only [runMatch, relPattern]
  rw [matchFrom_lit_pos (isPrefixOf_of_eq_append hd0), matchFrom_nstar, hd1,
    hassoc, countNot_append _ _ _ hnb]
  refine greedyFirst_target _ _ _ M.length ?_ ?_ ?_
  · simp only [List.length_append]; omega
  · intro i hgt hle
    have hdi : c.drop (P.length + litRel.length + i) =
        (M ++ (litBS ++ (R ++ '\x7d' :: Q))).drop i := drop_add_index i hd1
    cases hq : litBS.isPrefixOf (c.drop (P.length + litRel.length + i)) with
    | false => exact matchFrom_lit_neg hq
    | true =>
      rw [hdi, hassoc] at hq
      have hlen : i ≤ M.length + litBS.length + R.length := by
        simp only [List.length_append] at hle; omega
      have := hBSU i hlen hq
      omega
  · show matchFrom c
      [Item.lit litBS, Item.gopen 1, Item.nstar '\x7d', Item.gclose 1,
        Item.lit ['\x7d']] (P.length + litRel.length + M.length) [] [] = _
    rw [matchFrom_lit_pos (isPrefixOf_of_eq_append hd2), matchFrom_gopen,
      matchFrom_nstar, hd3, countNot_append _ _ _ (not_mem_imp_ne hR)]
    refine greedyFirst_target _ _ _ R.length (Nat.le_refl _)
      (fun i h1 h2 => absurd h1 (by omega)) ?_
    show matchFrom c [Item.gclose 1, Item.lit ['\x7d']]
      (P.length + litRel.length + M.length + litBS.length + R.length)
      [(1, P.length + litRel.length + M.length + litBS.length)] [] = _
    rw [matchFrom_gclose, matchFrom_lit_pos (isPrefixOf_of_eq_append hd4),
      matchFrom_nil]
    simp

/-- Forward computation of the four-group block pattern
`(head [^}]* buildSettings = \{)([^}]* mid)([^}]*)(\})` at the Release block
header, on content of the canonical shape. -/
theorem blockMatch_at (mid P M U V Q : List Char)
    (hM : '\x7d' ∉ M) (hU : '\x7d' ∉ U) (hV : '\x7d' ∉ V) (hmid : '\x7d' ∉ mid)
    (hBSU : ∀ i,
      i ≤ M.length + litBS.length + U.length + mid.length + V.length →
      litBS.isPrefixOf ((M ++ litBS ++ U ++ mid ++ V ++ '\x7d' :: Q).drop i) =
        true → i = M.length)
    (hMidU : ∀ i, i ≤ U.length + mid.length + V.length →
      mid.isPrefixOf ((U ++ mid ++ V ++ '\x7d' :: Q).drop i) = true →
      i = U.length) :
    runMatch (blockPattern mid)
      (P ++ litRel ++ M ++ litBS ++ U ++ mid ++ V ++ '\x7d' :: Q) P.length =
    some (P.length + litRel.length + M.length + litBS.length + U.length +
        mid.length + V.length + 1,
      [(4, P.length + litRel.length + M.length + litBS.length + U.length +
          mid.length + V.length),
       (3, P.length + litRel.length + M.length + litBS.length + U.length +
          mid.length),
       (2, P.length + litRel.length + M.length + litBS.length),
       (1, P.length)],
      [(4, P.length + litRel.length + M.length + litBS.length + U.length +
          mid.length + V.length + 1),
       (3, P.length + litRel.length + M.length + litBS.length + U.length +
          mid.length + V.length),
       (2, P.length + litRel.length + M.length + litBS.length + U.length +
          mid.length),
       (1, P.length + litRel.length + M.length + litBS.length)]) := by
  set c := P ++ litRel ++ M ++ litBS ++ U ++ mid ++ V ++ '\x7d' :: Q with hc
  have hce : c = P ++ (litRel ++ (M ++ (litBS ++ (U ++ (mid ++
      (V ++ '\x7d' :: Q)))))) := by
    rw [hc]; simp [List.append_assoc]
  have hd0 : c.drop P.length =
      litRel ++ (M ++ (litBS ++ (U ++ (mid ++ (V ++ '\x7d' :: Q))))) := by
    rw [hce]; exact List.drop_left _ _
  have hd1 : c.drop (P.length + litRel.length) =
      M ++ (litBS ++ (U ++ (mid ++ (V ++ '\x7d' :: Q)))) := drop_add_of hd0
  have hd2 : c.drop (P.length + litRel.length + M.length) =
      litBS ++ (U ++ (mid ++ (V ++ '\x7d' :: Q))) := drop_add_of hd1
  have hd3 : c.drop (P.length + litRel.length + M.length + litBS.length) =
      U ++ (mid ++ (V ++ '\x7d' :: Q)) := drop_add_of hd2
  have hd4 : c.drop (P.length + litRel.length + M.length + litBS.length +
      U.length) = mid ++ (V ++ '\x7d' :: Q) := drop_add_of hd3
  have hd5 : c.drop (P.length + litRel.length + M.length + litBS.length +
      U.length + mid.length) = V ++ '\x7d' :: Q := drop_add_of hd4
  have hd6 : c.drop (P.length + litRel.length + M.length + litBS.length +
      U.length + mid.length + V.length) = ['\x7d'] ++ Q := by
    rw [drop_add_of hd5]; rfl
  have hassoc1 : M ++ (litBS ++ (U ++ (mid ++ (V ++ '\x7d' :: Q)))) =
      M ++ litBS ++ U ++ mid ++ V ++ '\x7d' :: Q := by
    simp [List.append_assoc]
  have hassoc2 : U ++ (mid ++ (V ++ '\x7d' :: Q)) =
      U ++ mid ++ V ++ '\x7d' :: Q := by
    simp [List.append_assoc]
  have hnb1 : ∀ x ∈ M ++ litBS ++ U ++ mid ++ V, x ≠ '\x7d' := by
    intro x hx
    simp only [List.mem_append] at hx
    rcases hx with (((hx | hx) | hx) | hx) | hx
    · exact not_mem_imp_ne hM x hx
    · exact not_mem_imp_ne (by decide : '\x7d' ∉ litBS) x hx
    · exact not_mem_imp_ne hU x hx
    · exact not_mem_imp_ne hmid x hx
    · exact not_mem_imp_ne hV x hx
  have hnb2 : ∀ x ∈ U ++ mid ++ V, x ≠ '\x7d' := by
    intro x hx
    simp only [List.mem_append] at hx
    rcases hx with (hx | hx) | hx
    · exact not_mem_imp_ne hU x hx
    · exact not_mem_imp_ne hmid x hx
    · exact not_mem_imp_ne hV x hx
  simp only [runMatch, blockPattern]
  rw [matchFrom_gopen,
    matchFrom_lit_pos (isPrefixOf_of_eq_append hd0), matchFrom_nstar, hd1,
    hassoc1]
  have hassoc1' : M ++ litBS ++ U ++ mid ++ V ++ '\x7d' :: Q =
      (M ++ litBS ++ U ++ mid ++ V) ++ '\x7d' :: Q := by
    simp [List.append_assoc]
  rw [hassoc1', countNot_append _ _ _ hnb1]
  refine greedyFirst_target _ _ _ M.length ?_ ?_ ?_
  · simp only [List.length_append]; omega
  · intro i hgt hle
    have hdi : c.drop (P.length + litRel.length + i) =
        (M ++ (litBS ++ (U ++ (mid ++ (V ++ '\x7d' :: Q))))).drop i :=
      drop_add_index i hd1
    cases hq : litBS.isPrefixOf (c.drop (P.length + litRel.length + i)) with
    | false => exact matchFrom_lit_neg hq
    | true =>
      rw [hdi, hassoc1] at hq
      have hlen : i ≤ M.length + litBS.length + U.length + mid.length +
          V.length := by
        simp only [List.length_append] at hle; omega
      have := hBSU i hlen hq
      omega
  · show matchFrom c
      [Item.lit litBS, Item.gclose 1, Item.gopen 2, Item.nstar '\x7d',
        Item.lit mid, Item.gclose 2, Item.gopen 3, Item.nstar '\x7d',
        Item.gclose 3, Item.gopen 4, Item.lit ['\x7d'], Item.gclose 4]
      (P.length + litRel.length + M.length) [(1, P.length)] [] = _
    rw [matchFrom_lit_pos (isPrefixOf_of_eq_append hd2), matchFrom_gclose,
      matchFrom_gopen, matchFrom_nstar, hd3, hassoc2]
    have hassoc2' : U ++ mid ++ V ++ '\x7d' :: Q =
        (U ++ mid ++ V) ++ '\x7d' :: Q := by
      simp [List.append_assoc]
    rw [hassoc2', countNot_append _ _ _ hnb2]
    refine greedyFirst_target _ _ _ U.length ?_ ?_ ?_
    · simp only [List.length_append]; omega
    · intro i hgt hle
      have hdi : c.drop (P.length + litRel.length + M.length + litBS.length +
          i) = (U ++ (mid ++ (V ++ '\x7d' :: Q))).drop i :=
        drop_add_index i hd3
      cases hq : mid.isPrefixOf (c.drop (P.length + litRel.length + M.length +
          litBS.length + i)) with
      | false => exact matchFrom_lit_neg hq
      | true =>
        rw [hdi, hassoc2] at hq
        have hlen : i ≤ U.length + mid.length + V.length := by
          simp only [List.length_append] at hle; omega
        have := hMidU i hlen hq
        omega
    · show matchFrom c
        [Item.lit mid, Item.gclose 2, Item.gopen 3, Item.nstar '\x7d',
          Item.gclose 3, Item.gopen 4, Item.lit ['\x7d'], Item.gclose 4]
        (P.length + litRel.length + M.length + litBS.length + U.length)
        [(2, P.length + litRel.length + M.length + litBS.length),
         (1, P.length)]
        [(1, P.length + litRel.length + M.length + litBS.length)] = _
      rw [matchFrom_lit_pos (isPrefixOf_of_eq_append hd4), matchFrom_gclose,
        matchFrom_gopen, matchFrom_nstar, hd5,
        countNot_append _ _ _ (not_mem_imp_ne hV)]
      refine greedyFirst_target _ _ _ V.length (Nat.le_refl _)
        (fun i h1 h2 => absurd h1 (by omega)) ?_
      show matchFrom c
        [Item.gclose 3, Item.gopen 4, Item.lit ['\x7d'], Item.gclose 4]
        (P.length + litRel.length + M.length + litBS.length + U.length +
          mid.length + V.length)
        [(3, P.length + litRel.length + M.length + litBS.length + U.length +
            mid.length),
         (2, P.length + litRel.length + M.length + litBS.length),
         (1, P.length)]
        [(2, P.length + litRel.length + M.length + litBS.length + U.length +
            mid.length),
         (1, P.length + litRel.length + M.length + litBS.length)] = _
      rw [matchFrom_gclose, matchFrom_gopen,
        matchFrom_lit_pos (isPrefixOf_of_eq_append hd6), matchFrom_gclose,
        matchFrom_nil]
      simp

theorem gpos_one (s : Nat) (n : Nat) : gpos [(n, s)] n = s := by
  simp [gpos, List.lookup]

theorem gpos4_2 (a b x d : Nat) : gpos [(4, a), (3, b), (2, x), (1, d)] 2 = x := rfl

theorem gpos4_3 (a b x d : Nat) : gpos [(4, a), (3, b), (2, x), (1, d)] 3 = b := rfl

/-- Leftmost-match computation for `release_pattern` on the canonical shape:
no position before the Release header matches, so `re.search` stops at the
header. -/
theorem relSearch_at (P M R Q : List Char)
    (hM : '\x7d' ∉ M) (hR : '\x7d' ∉ R)
    (hBSU : ∀ i, i ≤ M.length + litBS.length + R.length →
      litBS.isPrefixOf ((M ++ litBS ++ R ++ '\x7d' :: Q).drop i) = true →
      i = M.length)
    (hRelU : ∀ i, i < P.length →
      litRel.isPrefixOf
        ((P ++ litRel ++ M ++ litBS ++ R ++ '\x7d' :: Q).drop i) = false) :
    reSearch relPattern (P ++ litRel ++ M ++ litBS ++ R ++ '\x7d' :: Q) =
    some (P.length,
      P.length + litRel.length + M.length + litBS.length + R.length + 1,
      [(1, P.length + litRel.length + M.length + litBS.length)],
      [(1, P.length + litRel.length + M.length + litBS.length + R.length)]) := by
  apply searchAux_finds
  · exact Nat.zero_le _
  · simp only [Nat.zero_add, List.length_append, List.length_cons]; omega
  · intro q _ hq
    simp only [runMatch, relPattern]
    exact matchFrom_lit_neg (hRelU q hq)
  · exact relMatch_at P M R Q hM hR hBSU

/-- Leftmost-match computation for the four-group block pattern on the
canonical shape. -/
theorem blockSearch_at (mid P M U V Q : List Char)
    (hM : '\x7d' ∉ M) (hU : '\x7d' ∉ U) (hV : '\x7d' ∉ V) (hmid : '\x7d' ∉ mid)
    (hBSU : ∀ i,
      i ≤ M.length + litBS.length + U.length + mid.length + V.length →
      litBS.isPrefixOf ((M ++ litBS ++ U ++ mid ++ V ++ '\x7d' :: Q).drop i) =
        true → i = M.length)
    (hMidU : ∀ i, i ≤ U.length + mid.length + V.length →
      mid.isPrefixOf ((U ++ mid ++ V ++ '\x7d' :: Q).drop i) = true →
      i = U.length)
    (hRelU : ∀ i, i < P.length →
      litRel.isPrefixOf
        ((P ++ litRel ++ M ++ litBS ++ U ++ mid ++ V ++ '\x7d' :: Q).drop i) =
        false) :
    reSearch (blockPattern mid)
      (P ++ litRel ++ M ++ litBS ++ U ++ mid ++ V ++ '\x7d' :: Q) =
    some (P.length,
      P.length + litRel.length + M.length + litBS.length + U.length +
        mid.length + V.length + 1,
      [(4, P.length + litRel.length + M.length + litBS.length + U.length +
          mid.length + V.length),
       (3, P.length + litRel.length + M.length + litBS.length + U.length +
          mid.length),
       (2, P.length + litRel.length + M.length + litBS.length),
       (1, P.length)],
      [(4, P.length + litRel.length + M.length + litBS.length + U.length +
          mid.length + V.length + 1),
       (3, P.length + litRel.length + M.length + litBS.length + U.length +
          mid.length + V.length),
       (2, P.length + litRel.length + M.length + litBS.length + U.length +
          mid.length),
       (1, P.length + litRel.length + M.length + litBS.length)]) := by
  apply searchAux_finds
  · exact Nat.zero_le _
  · simp only [Nat.zero_add, List.length_append, List.length_cons]; omega
  · intro q _ hq
    simp only [runMatch, blockPattern]
    rw [matchFrom_gopen]
    exact matchFrom_lit_neg (hRelU q hq)
  · exact blockMatch_at mid P M U V Q hM hU hV hmid hBSU hMidU

/-- The `team` update path: on canonical content whose Release buildSettings
block `R` contains `DEVELOPMENT_TEAM`, the run prints the `Updated` message
and applies the global `re.sub` to the whole file. -/
theorem runTeam_update (tid P M R Q : List Char)
    (hM : '\x7d' ∉ M) (hR : '\x7d' ∉ R)
    (hBSU : ∀ i, i ≤ M.length + litBS.length + R.length →
      litBS.isPrefixOf ((M ++ litBS ++ R ++ '\x7d' :: Q).drop i) = true →
      i = M.length)
    (hRelU : ∀ i, i < P.length →
      litRel.isPrefixOf
        ((P ++ litRel ++ M ++ litBS ++ R ++ '\x7d' :: Q).drop i) = false)
    (hDT : containsSub devTeamKey R = true) :
    runScript tid "team" (some (P ++ litRel ++ M ++ litBS ++ R ++ '\x7d' :: Q)) =
    ⟨0, [msgUpdated],
      some (subDevTeam tid (P ++ litRel ++ M ++ litBS ++ R ++ '\x7d' :: Q))⟩ := by
  have hsearch := relSearch_at P M R Q hM hR hBSU hRelU
  set c := P ++ litRel ++ M ++ litBS ++ R ++ '\x7d' :: Q with hc
  have hce : c = P ++ (litRel ++ (M ++ (litBS ++ (R ++ '\x7d' :: Q)))) := by
    rw [hc]; simp [List.append_assoc]
  have hd0 : c.drop P.length =
      litRel ++ (M ++ (litBS ++ (R ++ '\x7d' :: Q))) := by
    rw [hce]; exact List.drop_left _ _
  have hd3 : c.drop (P.length + litRel.length + M.length + litBS.length) =
      R ++ '\x7d' :: Q := drop_add_of (drop_add_of (drop_add_of hd0))
  have hslice : groupSlice c
      [(1, P.length + litRel.length + M.length + litBS.length)]
      [(1, P.length + litRel.length + M.length + litBS.length + R.length)] 1 =
      R := by
    simp only [groupSlice, gpos_one]
    exact slice_of_drop hd3
  have hRel : relHasDT c = true := by
    simp only [relHasDT, hsearch, hslice, hDT]
  simp only [runScript, if_true]
  simp [runTeam, hRel]

/-- The `team` insertion path: on canonical content whose Release
buildSettings block contains the `IPHONEOS_DEPLOYMENT_TARGET = 15.1;` anchor
and no `DEVELOPMENT_TEAM`, the run inserts the `DEVELOPMENT_TEAM` line once,
immediately after the anchor, leaving everything else unchanged. -/
theorem runTeam_insert (tid P M U V Q : List Char)
    (hM : '\x7d' ∉ M) (hU : '\x7d' ∉ U) (hV : '\x7d' ∉ V)
    (hBSU : ∀ i,
      i ≤ M.length + litBS.length + U.length + anchorIPH.length + V.length →
      litBS.isPrefixOf
        ((M ++ litBS ++ U ++ anchorIPH ++ V ++ '\x7d' :: Q).drop i) = true →
      i = M.length)
    (hMidU : ∀ i, i ≤ U.length + anchorIPH.length + V.length →
      anchorIPH.isPrefixOf ((U ++ anchorIPH ++ V ++ '\x7d' :: Q).drop i) =
        true → i = U.length)
    (hRelU : ∀ i, i < P.length →
      litRel.isPrefixOf
        ((P ++ litRel ++ M ++ litBS ++ U ++ anchorIPH ++ V ++ '\x7d' :: Q).drop
          i) = false)
    (hNoDT : containsSub devTeamKey (U ++ anchorIPH ++ V) = false) :
    runScript tid "team"
      (some (P ++ litRel ++ M ++ litBS ++ U ++ anchorIPH ++ V ++ '\x7d' :: Q)) =
    ⟨0, [msgAdded],
      some (P ++ litRel ++ M ++ litBS ++ U ++ anchorIPH ++ nlDT tid ++ V ++
        '\x7d' :: Q)⟩ := by
  set c := P ++ litRel ++ M ++ litBS ++ U ++ anchorIPH ++ V ++ '\x7d' :: Q
    with hc
  have hRV : '\x7d' ∉ U ++ anchorIPH ++ V := by
    simp only [List.mem_append, not_or]
    exact ⟨⟨hU, by decide⟩, hV⟩
  have hBSU' : ∀ i,
      i ≤ M.length + litBS.length + (U ++ anchorIPH ++ V).length →
      litBS.isPrefixOf
        ((M ++ litBS ++ (U ++ anchorIPH ++ V) ++ '\x7d' :: Q).drop i) = true →
      i = M.length := by
    intro i hle hq
    have heq : M ++ litBS ++ (U ++ anchorIPH ++ V) ++ '\x7d' :: Q =
        M ++ litBS ++ U ++ anchorIPH ++ V ++ '\x7d' :: Q := by
      simp [List.append_assoc]
    rw [heq] at hq
    exact hBSU i (by simp only [List.length_append] at hle ⊢; omega) hq
  have hRelU' : ∀ i, i < P.length →
      litRel.isPrefixOf
        ((P ++ litRel ++ M ++ litBS ++ (U ++ anchorIPH ++ V) ++ '\x7d' :: Q).drop
          i) = false := by
    intro i hlt
    have heq : P ++ litRel ++ M ++ litBS ++ (U ++ anchorIPH ++ V) ++
        '\x7d' :: Q = c := by
      rw [hc]; simp [List.append_assoc]
    rw [heq]
    exact hRelU i hlt
  have hsearchRel := relSearch_at P M (U ++ anchorIPH ++ V) Q hM hRV hBSU' hRelU'
  have heqc : P ++ litRel ++ M ++ litBS ++ (U ++ anchorIPH ++ V) ++
      '\x7d' :: Q = c := by
    rw [hc]; simp [List.append_assoc]
  rw [heqc] at hsearchRel
  have hce : c = P ++ (litRel ++ (M ++ (litBS ++ ((U ++ anchorIPH ++ V) ++
      '\x7d' :: Q)))) := by
    rw [hc]; simp [List.append_assoc]
  have hd0 : c.drop P.length =
      litRel ++ (M ++ (litBS ++ ((U ++ anchorIPH ++ V) ++ '\x7d' :: Q))) := by
    rw [hce]; exact List.drop_left _ _
  have hd3 : c.drop (P.length + litRel.length + M.length + litBS.length) =
      (U ++ anchorIPH ++ V) ++ '\x7d' :: Q :=
    drop_add_of (drop_add_of (drop_add_of hd0))
  have hslice1 : groupSlice c
      [(1, P.length + litRel.length + M.length + litBS.length)]
      [(1, P.length + litRel.length + M.length + litBS.length +
        (U ++ anchorIPH ++ V).length)] 1 = U ++ anchorIPH ++ V := by
    simp only [groupSlice, gpos_one]
    exact slice_of_drop hd3
  have hRel : relHasDT c = false := by
    simp only [relHasDT, hsearchRel, hslice1, hNoDT]
  have hsearchIns := blockSearch_at anchorIPH P M U V Q hM hU hV (by decide)
    hBSU hMidU hRelU
  have hce2 : c = P ++ (litRel ++ (M ++ (litBS ++ (U ++ (anchorIPH ++
      (V ++ '\x7d' :: Q)))))) := by
    rw [hc]; simp [List.append_assoc]
  have hd0' : c.drop P.length =
      litRel ++ (M ++ (litBS ++ (U ++ (anchorIPH ++ (V ++ '\x7d' :: Q))))) := by
    rw [hce2]; exact List.drop_left _ _
  have hd5 : c.drop (P.length + litRel.length + M.length + litBS.length +
      U.length + anchorIPH.length) = V ++ '\x7d' :: Q :=
    drop_add_of (drop_add_of (drop_add_of (drop_add_of (drop_add_of hd0'))))
  have hslice3 : groupSlice c
      [(4, P.length + litRel.length + M.length + litBS.length + U.length +
          anchorIPH.length + V.length),
       (3, P.length + litRel.length + M.length + litBS.length + U.length +
          anchorIPH.length),
       (2, P.length + litRel.length + M.length + litBS.length),
       (1, P.length)]
      [(4, P.length + litRel.length + M.length + litBS.length + U.length +
          anchorIPH.length + V.length + 1),
       (3, P.length + litRel.length + M.length + litBS.length + U.length +
          anchorIPH.length + V.length),
       (2, P.length + litRel.length + M.length + litBS.length + U.length +
          anchorIPH.length),
       (1, P.length + litRel.length + M.length + litBS.length)] 3 = V := by
    simp only [groupSlice, gpos4_3]
    exact slice_of_drop hd5
  have hNoDTV : containsSub devTeamKey V = false :=
    containsSub_false_of_append_right hNoDT
  have htake : c.take (P.length + litRel.length + M.length + litBS.length +
      U.length + anchorIPH.length) =
      P ++ litRel ++ M ++ litBS ++ U ++ anchorIPH := by
    have hsplit : c = (P ++ litRel ++ M ++ litBS ++ U ++ anchorIPH) ++
        (V ++ '\x7d' :: Q) := by
      rw [hc]; simp [List.append_assoc]
    rw [hsplit]
    apply List.take_left'
    simp only [List.length_append]
  have hdropE3 : c.drop (P.length + litRel.length + M.length + litBS.length +
      U.length + anchorIPH.length + V.length) = '\x7d' :: Q := drop_add_of hd5
  simp only [runScript, if_true]
  simp only [runTeam, hRel, Bool.false_eq_true, if_false]
  simp only [teamInsert, insPattern, hsearchIns, hslice3, hNoDTV,
    Bool.false_eq_true, if_false, gpos4_2, gpos4_3, htake, hdropE3,
    List.append_assoc]

/-- The `code_sign` insertion path: on canonical content whose Release
buildSettings block contains the exact `DEVELOPMENT_TEAM = <tid>;` line and
no `CODE_SIGN_STYLE`, the run inserts the `CODE_SIGN_STYLE = Manual;` line
once, immediately after the team line. -/
theorem runCodeSign_insert (tid P M U V Q : List Char)
    (hM : '\x7d' ∉ M) (hU : '\x7d' ∉ U) (hV : '\x7d' ∉ V) (htid : '\x7d' ∉ tid)
    (hBSU : ∀ i,
      i ≤ M.length + litBS.length + U.length + (dtLine tid).length + V.length →
      litBS.isPrefixOf
        ((M ++ litBS ++ U ++ dtLine tid ++ V ++ '\x7d' :: Q).drop i) = true →
      i = M.length)
    (hMidU : ∀ i, i ≤ U.length + (dtLine tid).length + V.length →
      (dtLine tid).isPrefixOf ((U ++ dtLine tid ++ V ++ '\x7d' :: Q).drop i) =
        true → i = U.length)
    (hRelU : ∀ i, i < P.length →
      litRel.isPrefixOf
        ((P ++ litRel ++ M ++ litBS ++ U ++ dtLine tid ++ V ++ '\x7d' :: Q).drop
          i) = false)
    (hNoCSS : containsSub cssKey V = false) :
    runScript tid "code_sign"
      (some (P ++ litRel ++ M ++ litBS ++ U ++ dtLine tid ++ V ++ '\x7d' :: Q)) =
    ⟨0, [msgCSAdded],
      some (P ++ litRel ++ M ++ litBS ++ U ++ dtLine tid ++ nlCSS ++ V ++
        '\x7d' :: Q)⟩ := by
  set c := P ++ litRel ++ M ++ litBS ++ U ++ dtLine tid ++ V ++ '\x7d' :: Q
    with hc
  have hmid : '\x7d' ∉ dtLine tid := by
    simp only [dtLine, List.mem_append, not_or]
    exact ⟨⟨by decide, htid⟩, by decide⟩
  have hsearch := blockSearch_at (dtLine tid) P M U V Q hM hU hV hmid hBSU
    hMidU hRelU
  have hce : c = P ++ (litRel ++ (M ++ (litBS ++ (U ++ (dtLine tid ++
      (V ++ '\x7d' :: Q)))))) := by
    rw [hc]; simp [List.append_assoc]
  have hd0 : c.drop P.length =
      litRel ++ (M ++ (litBS ++ (U ++ (dtLine tid ++ (V ++ '\x7d' :: Q))))) := by
    rw [hce]; exact List.drop_left _ _
  have hd5 : c.drop (P.length + litRel.length + M.length + litBS.length +
      U.length + (dtLine tid).length) = V ++ '\x7d' :: Q :=
    drop_add_of (drop_add_of (drop_add_of (drop_add_of (drop_add_of hd0))))
  have hslice3 : groupSlice c
      [(4, P.length + litRel.length + M.length + litBS.length + U.length +
          (dtLine tid).length + V.length),
       (3, P.length + litRel.length + M.length + litBS.length + U.length +
          (dtLine tid).length),
       (2, P.length + litRel.length + M.length + litBS.length),
       (1, P.length)]
      [(4, P.length + litRel.length + M.length + litBS.length + U.length +
          (dtLine tid).length + V.length + 1),
       (3, P.length + litRel.length + M.length + litBS.length + U.length +
          (dtLine tid).length + V.length),
       (2, P.length + litRel.length + M.length + litBS.length + U.length +
          (dtLine tid).length),
       (1, P.length + litRel.length + M.length + litBS.length)] 3 = V := by
    simp only [groupSlice, gpos4_3]
    exact slice_of_drop hd5
  have htake : c.take (P.length + litRel.length + M.length + litBS.length +
      U.length + (dtLine tid).length) =
      P ++ litRel ++ M ++ litBS ++ U ++ dtLine tid := by
    have hsplit : c = (P ++ litRel ++ M ++ litBS ++ U ++ dtLine tid) ++
        (V ++ '\x7d' :: Q) := by
      rw [hc]; simp [List.append_assoc]
    rw [hsplit]
    apply List.take_left'
    simp only [List.length_append]
  have hdropE3 : c.drop (P.length + litRel.length + M.length + litBS.length +
      U.length + (dtLine tid).length + V.length) = '\x7d' :: Q :=
    drop_add_of hd5
  have hact : runScript tid "code_sign" (some c) = runCodeSign tid c := rfl
  rw [hact]
  simp only [runCodeSign, csPattern, hsearch, hslice3, hNoCSS,
    Bool.false_eq_true, if_false, gpos4_2, gpos4_3, htake, hdropE3,
    List.append_assoc]

/-- The `code_sign` no-op path: when the Release buildSettings block already
contains `CODE_SIGN_STYLE` after the exact `DEVELOPMENT_TEAM = <tid>;` line,
the run reports `already exists` and leaves the content unchanged. -/
theorem runCodeSign_exists (tid P M U V Q : List Char)
    (hM : '\x7d' ∉ M) (hU : '\x7d' ∉ U) (hV : '\x7d' ∉ V) (htid : '\x7d' ∉ tid)
    (hBSU : ∀ i,
      i ≤ M.length + litBS.length + U.length + (dtLine tid).length + V.length →
      litBS.isPrefixOf
        ((M ++ litBS ++ U ++ dtLine tid ++ V ++ '\x7d' :: Q).drop i) = true →
      i = M.length)
    (hMidU : ∀ i, i ≤ U.length + (dtLine tid).length + V.length →
      (dtLine tid).isPrefixOf ((U ++ dtLine tid ++ V ++ '\x7d' :: Q).drop i) =
        true → i = U.length)
    (hRelU : ∀ i, i < P.length →
      litRel.isPrefixOf
        ((P ++ litRel ++ M ++ litBS ++ U ++ dtLine tid ++ V ++ '\x7d' :: Q).drop
          i) = false)
    (hCSS : containsSub cssKey V = true) :
    runScript tid "code_sign"
      (some (P ++ litRel ++ M ++ litBS ++ U ++ dtLine tid ++ V ++ '\x7d' :: Q)) =
    ⟨0, [msgCSExists],
      some (P ++ litRel ++ M ++ litBS ++ U ++ dtLine tid ++ V ++
        '\x7d' :: Q)⟩ := by
  set c := P ++ litRel ++ M ++ litBS ++ U ++ dtLine tid ++ V ++ '\x7d' :: Q
    with hc
  have hmid : '\x7d' ∉ dtLine tid := by
    simp only [dtLine, List.mem_append, not_or]
    exact ⟨⟨by decide, htid⟩, by decide⟩
  have hsearch := blockSearch_at (dtLine tid) P M U V Q hM hU hV hmid hBSU
    hMidU hRelU
  have hce : c = P ++ (litRel ++ (M ++ (litBS ++ (U ++ (dtLine tid ++
      (V ++ '\x7d' :: Q)))))) := by
    rw [hc]; simp [List.append_assoc]
  have hd0 : c.drop P.length =
      litRel ++ (M ++ (litBS ++ (U ++ (dtLine tid ++ (V ++ '\x7d' :: Q))))) := by
    rw [hce]; exact List.drop_left _ _
  have hd5 : c.drop (P.length + litRel.length + M.length + litBS.length +
      U.length + (dtLine tid).length) = V ++ '\x7d' :: Q :=
    drop_add_of (drop_add_of (drop_add_of (drop_add_of (drop_add_of hd0))))
  have hslice3 : groupSlice c
      [(4, P.length + litRel.length + M.length + litBS.length + U.length +
          (dtLine tid).length + V.length),
       (3, P.length + litRel.length + M.length + litBS.length + U.length +
          (dtLine tid).length),
       (2, P.length + litRel.length + M.length + litBS.length),
       (1, P.length)]
      [(4, P.length + litRel.length + M.length + litBS.length + U.length +
          (dtLine tid).length + V.length + 1),
       (3, P.length + litRel.length + M.length + litBS.length + U.length +
          (dtLine tid).length + V.length),
       (2, P.length + litRel.length + M.length + litBS.length + U.length +
          (dtLine tid).length),
       (1, P.length + litRel.length + M.length + litBS.length)] 3 = V := by
    simp only [groupSlice, gpos4_3]
    exact slice_of_drop hd5
  have hact : runScript tid "code_sign" (some c) = runCodeSign tid c := rfl
  rw [hact]
  simp only [runCodeSign, csPattern, hsearch, hslice3, hCSS, if_true]

/-! ### Lemmas about the `re.sub` scan -/

theorem litDT_cons : litDT = 'D' :: "EVELOPMENT_TEAM = ".data := rfl

theorem litDT_isPrefixOf_cons_false {x : Char} {t : List Char} (h : x ≠ 'D') :
    litDT.isPrefixOf (x :: t) = false := by
  rw [litDT_cons]
  cases hbe : ('D' == x) with
  | false => simp [List.isPrefixOf, hbe]
  | true => exact absurd (beq_iff_eq.mp hbe).symm h

theorem subAux_nil (tid : List Char) (fuel : Nat) : subAux tid fuel [] = [] := by
  cases fuel <;> rfl

theorem subAux_skip_cons (tid : List Char) (x : Char) (t : List Char)
    (fuel : Nat) (h : x ≠ 'D') :
    subAux tid (fuel + 1) (x :: t) = x :: subAux tid fuel t := by
  simp [subAux, litDT_isPrefixOf_cons_false h]

theorem subAux_skip (tid xs : List Char) :
    ∀ (fuel : Nat) (rest : List Char), (∀ x ∈ xs, x ≠ 'D') →
    xs.length ≤ fuel →
    subAux tid fuel (xs ++ rest) = xs ++ subAux tid (fuel - xs.length) rest := by
  induction xs with
  | nil => intro fuel rest _ _; simp
  | cons x t ih =>
    intro fuel rest h hle
    cases fuel with
    | zero => simp at hle
    | succ f =>
      have hx : x ≠ 'D' := h x (List.mem_cons_self x t)
      have ht : ∀ y ∈ t, y ≠ 'D' := fun y hy => h y (List.mem_cons_of_mem x hy)
      have hlf : t.length ≤ f := by simp at hle; omega
      rw [List.cons_append, subAux_skip_cons tid x (t ++ rest) f hx,
        ih f rest ht hlf]
      simp [Nat.succ_sub_succ]

theorem subAux_id (tid xs : List Char) (fuel : Nat)
    (h : ∀ x ∈ xs, x ≠ 'D') (hle : xs.length ≤ fuel) :
    subAux tid fuel xs = xs := by
  have := subAux_skip tid xs fuel [] h hle
  simpa [subAux_nil] using this

theorem findIdx_semi (v rest : List Char) (hv : ';' ∉ v) :
    (v ++ ';' :: rest).findIdx? (fun ch => ch = ';') = some v.length := by
  induction v with
  | nil => simp [List.findIdx?]
  | cons x t ih =>
    have hx : x ≠ ';' := fun he => hv (he ▸ List.mem_cons_self x t)
    have ht : ';' ∉ t := fun hm => hv (List.mem_cons_of_mem x hm)
    simp [List.findIdx?, hx, ih ht]

theorem subAux_match (tid v rest : List Char) (fuel : Nat) (hv : ';' ∉ v) :
    subAux tid (fuel + 1) (litDT ++ (v ++ ';' :: rest)) =
    litDT ++ tid ++ ';' :: subAux tid fuel rest := by
  have hcons : litDT ++ (v ++ ';' :: rest) =
      'D' :: ("EVELOPMENT_TEAM = ".data ++ (v ++ ';' :: rest)) := by
    rw [litDT_cons]; rfl
  have hpre : litDT.isPrefixOf
      ('D' :: ("EVELOPMENT_TEAM = ".data ++ (v ++ ';' :: rest))) = true := by
    rw [← hcons]; exact isPrefixOf_append_left _ _
  have hdrop : ('D' :: ("EVELOPMENT_TEAM = ".data ++ (v ++ ';' :: rest))).drop
      litDT.length = v ++ ';' :: rest := by
    rw [← hcons]; exact List.drop_left _ _
  have h1 : (v ++ ';' :: rest).drop v.length = [';'] ++ rest := by
    have := List.drop_left v (';' :: rest)
    rw [this]; rfl
  have h2 : (v ++ ';' :: rest).drop (v.length + 1) = rest := by
    have h3 := drop_add_of h1
    simp only [List.length_cons, List.length_nil] at h3
    exact h3
  rw [hcons]
  simp only [subAux, hpre, if_true, hdrop, findIdx_semi v rest hv, h2]

theorem subAux_fuel_irrel (tid : List Char) :
    ∀ (fuel₁ fuel₂ : Nat) (s : List Char), s.length ≤ fuel₁ →
    s.length ≤ fuel₂ → subAux tid fuel₁ s = subAux tid fuel₂ s := by
  intro fuel₁
  induction fuel₁ with
  | zero =>
    intro fuel₂ s h1 _
    have : s = [] := List.length_eq_zero.mp (Nat.le_zero.mp h1)
    subst this
    simp [subAux_nil]
  | succ f ih =>
    intro fuel₂ s h1 h2
    cases s with
    | nil => simp [subAux_nil]
    | cons x t =>
      cases fuel₂ with
      | zero => simp at h2
      | succ g =>
        have h19 : litDT.length = 19 := rfl
        simp only [subAux]
        cases hq : litDT.isPrefixOf (x :: t) with
        | false =>
          simp only [Bool.false_eq_true, if_false]
          have hlt : t.length ≤ f := by simp at h1; omega
          have hlt2 : t.length ≤ g := by simp at h2; omega
          rw [ih g t hlt hlt2]
        | true =>
          simp only [if_true]
          cases hfi : ((x :: t).drop litDT.length).findIdx?
              (fun ch => ch = ';') with
          | none =>
            simp only []
            have hlt : t.length ≤ f := by simp at h1; omega
            have hlt2 : t.length ≤ g := by simp at h2; omega
            rw [ih g t hlt hlt2]
          | some j =>
            simp only []
            have hlen : (((x :: t).drop litDT.length).drop (j + 1)).length ≤
                t.length := by
              simp only [List.length_drop, List.length_cons, h19]
              omega
            have hlt : (((x :: t).drop litDT.length).drop (j + 1)).length ≤
                f := by
              simp only [List.length_cons] at h1; omega
            have hlt2 : (((x :: t).drop litDT.length).drop (j + 1)).length ≤
                g := by
              simp only [List.length_cons] at h2; omega
            rw [ih g _ hlt hlt2]

/-- `re.sub(r'DEVELOPMENT_TEAM = [^;]*;', ...)` rewrites every occurrence in
the string, wherever it is: on a string with two `DEVELOPMENT_TEAM = ...;`
settings in unrelated places, both values become `tid`. -/
theorem subDevTeam_replaces_all (tid a v b w c' : List Char)
    (ha : 'D' ∉ a) (hb : 'D' ∉ b) (hc : 'D' ∉ c')
    (hv : ';' ∉ v) (hw : ';' ∉ w) :
    subDevTeam tid (a ++ litDT ++ v ++ ';' :: b ++ litDT ++ w ++ ';' :: c') =
    a ++ litDT ++ tid ++ ';' :: b ++ litDT ++ tid ++ ';' :: c' := by
  have hsplit : a ++ litDT ++ v ++ ';' :: b ++ litDT ++ w ++ ';' :: c' =
      a ++ (litDT ++ (v ++ ';' :: (b ++ (litDT ++ (w ++ ';' :: c'))))) := by
    simp [List.append_assoc]
  rw [subDevTeam, hsplit]
  rw [subAux_skip tid a _ _ (not_mem_imp_ne ha) (by
    simp only [List.length_append]; omega)]
  have hf1 : (a ++ (litDT ++ (v ++ ';' :: (b ++ (litDT ++
      (w ++ ';' :: c')))))).length - a.length =
      (litDT ++ (v ++ ';' :: (b ++ (litDT ++ (w ++ ';' :: c'))))).length := by
    simp only [List.length_append]; omega
  rw [hf1]
  have hR1 : (litDT ++ (v ++ ';' :: (b ++ (litDT ++
      (w ++ ';' :: c'))))).length =
      (litDT.length + v.length +
        (b ++ (litDT ++ (w ++ ';' :: c'))).length) + 1 := by
    simp only [List.length_append, List.length_cons]; omega
  rw [hR1, subAux_match tid v _ _ hv]
  rw [subAux_fuel_irrel tid _ (b ++ (litDT ++ (w ++ ';' :: c'))).length _
    (by omega) (Nat.le_refl _)]
  rw [subAux_skip tid b _ _ (not_mem_imp_ne hb) (by
    simp only [List.length_append]; omega)]
  have hf2 : (b ++ (litDT ++ (w ++ ';' :: c'))).length - b.length =
      (litDT ++ (w ++ ';' :: c')).length := by
    simp only [List.length_append]; omega
  rw [hf2]
  have hR3 : (litDT ++ (w ++ ';' :: c')).length =
      (litDT.length + w.length + c'.length) + 1 := by
    simp only [List.length_append, List.length_cons]; omega
  rw [hR3, subAux_match tid w _ _ hw]
  rw [subAux_fuel_irrel tid _ c'.length _ (by omega) (Nat.le_refl _)]
  rw [subAux_id tid c' _ (not_mem_imp_ne hc) (Nat.le_refl _)]
  simp [List.append_assoc]

/-! ### Claim theorems -/

/-- C3: for every file content in which the expected Release target
configuration pattern cannot be located (the `team` branch finds neither an
existing `DEVELOPMENT_TEAM` in the Release block nor the insertion anchor;
the `code_sign` branch finds no block with the exact team line), the script
exits with code 1 and the file content is unmodified — no partial write on
the error path. -/
theorem c3_unmatched_exit1 (tid c : List Char) :
    (relHasDT c = false → reSearch insPattern c = none →
      runScript tid "team" (some c) = ⟨1, [msgNoRelease], some c⟩) ∧
    (reSearch (csPattern tid) c = none →
      runScript tid "code_sign" (some c) = ⟨1, [msgNoRelease], some c⟩) := by
  constructor
  · intro h1 h2
    have hact : runScript tid "team" (some c) = runTeam tid c := rfl
    rw [hact]
    simp [runTeam, h1, teamInsert, h2]
  · intro h
    have hact : runScript tid "code_sign" (some c) = runCodeSign tid c := rfl
    rw [hact]
    simp [runCodeSign, h]

theorem c3_unmatched_exit1_witness :
    relHasDT "x".data = false ∧
    reSearch insPattern "x".data = none ∧
    reSearch (csPattern "T".data) "x".data = none ∧
    runScript "T".data "team" (some "x".data) =
      ⟨1, [msgNoRelease], some "x".data⟩ ∧
    runScript "T".data "code_sign" (some "x".data) =
      ⟨1, [msgNoRelease], some "x".data⟩ :=
  ⟨by decide, by decide, by decide,
   (c3_unmatched_exit1 "T".data "x".data).1 (by decide) (by decide),
   (c3_unmatched_exit1 "T".data "x".data).2 (by decide)⟩

/-- C4: when the project file is missing the script warns and exits 1
without touching any file; when the file exists, every run either exits 0
or is an unmatched-structure error (exit 1 with the corresponding warning
as its only output). -/
theorem c4_exit_codes :
    (∀ (tid : List Char) (action : String),
      runScript tid action none = ⟨1, [msgNotFound], none⟩) ∧
    (∀ (tid c : List Char) (action : String),
      (runScript tid action (some c)).exitCode = 0 ∨
      (runScript tid action (some c)).output = [msgNoRelease]) := by
  constructor
  · intro tid action; rfl
  · intro tid c action
    simp only [runScript]
    by_cases ha : action = "team"
    · rw [if_pos ha]
      by_cases h1 : relHasDT c
      · left; simp [runTeam, h1]
      · cases h2 : reSearch insPattern c with
        | none =>
          right
          simp [runTeam, h1, teamInsert, h2]
        | some r =>
          obtain ⟨p, e, gs, ge⟩ := r
          by_cases h3 : containsSub devTeamKey (groupSlice c gs ge 3) = true
          · left; simp [runTeam, h1, teamInsert, h2, h3]
          · left; simp [runTeam, h1, teamInsert, h2, h3]
    · rw [if_neg ha]
      by_cases hb : action = "code_sign"
      · rw [if_pos hb]
        cases h2 : reSearch (csPattern tid) c with
        | none => right; simp [runCodeSign, h2]
        | some r =>
          obtain ⟨p, e, gs, ge⟩ := r
          by_cases h3 : containsSub cssKey (groupSlice c gs ge 3) = true
          · left; simp [runCodeSign, h2, h3]
          · left; simp [runCodeSign, h2, h3]
      · rw [if_neg hb]; left; rfl

/-- C6: invoking the script with no positional argument is identical to
invoking it with `team`, for every team id and file state. -/
theorem c6_default_action (tid : List Char) (prog : String)
    (file : Option (List Char)) :
    runWithArgv tid [prog] file = runWithArgv tid [prog, "team"] file := rfl

/-- C8: with a positional argument that is neither `team` nor `code_sign`,
neither branch runs: the script rewrites the file with byte-identical
content, prints nothing, and exits 0. -/
theorem c8_invalid_action_noop (tid c : List Char) (prog a : String)
    (h1 : a ≠ "team") (h2 : a ≠ "code_sign") :
    runWithArgv tid [prog, a] (some c) = ⟨0, [], some c⟩ := by
  show runScript tid a (some c) = _
  simp [runScript, h1, h2]

theorem c8_invalid_action_noop_witness :
    ("frobnicate" : String) ≠ "team" ∧ ("frobnicate" : String) ≠ "code_sign" ∧
    runWithArgv "T".data ["update-xcode-team.py", "frobnicate"]
      (some "abc".data) = ⟨0, [], some "abc".data⟩ :=
  ⟨by decide, by decide,
   c8_invalid_action_noop "T".data "abc".data "update-xcode-team.py"
     "frobnicate" (by decide) (by decide)⟩

/-- C2: on every file of the canonical shape whose Release target
buildSettings block contains the anchor `IPHONEOS_DEPLOYMENT_TARGET = 15.1;`
and no `DEVELOPMENT_TEAM` setting, one `team` run inserts the line
`DEVELOPMENT_TEAM = <team_id>;` exactly once, immediately after the anchor,
and leaves the rest of the file unchanged (exit code 0). -/
theorem c2_insert_once (tid P M U V Q : List Char)
    (hM : '\x7d' ∉ M) (hU : '\x7d' ∉ U) (hV : '\x7d' ∉ V)
    (hBSU : ∀ i,
      i ≤ M.length + litBS.length + U.length + anchorIPH.length + V.length →
      litBS.isPrefixOf
        ((M ++ litBS ++ U ++ anchorIPH ++ V ++ '\x7d' :: Q).drop i) = true →
      i = M.length)
    (hMidU : ∀ i, i ≤ U.length + anchorIPH.length + V.length →
      anchorIPH.isPrefixOf ((U ++ anchorIPH ++ V ++ '\x7d' :: Q).drop i) =
        true → i = U.length)
    (hRelU : ∀ i, i < P.length →
      litRel.isPrefixOf
        ((P ++ litRel ++ M ++ litBS ++ U ++ anchorIPH ++ V ++ '\x7d' :: Q).drop
          i) = false)
    (hNoDT : containsSub devTeamKey (U ++ anchorIPH ++ V) = false) :
    runScript tid "team"
      (some (P ++ litRel ++ M ++ litBS ++ U ++ anchorIPH ++ V ++ '\x7d' :: Q)) =
    ⟨0, [msgAdded],
      some (P ++ litRel ++ M ++ litBS ++ U ++ anchorIPH ++ nlDT tid ++ V ++
        '\x7d' :: Q)⟩ :=
  runTeam_insert tid P M U V Q hM hU hV hBSU hMidU hRelU hNoDT

theorem c2_insert_once_witness :
    containsSub devTeamKey (([] : List Char) ++ anchorIPH ++ []) = false ∧
    runScript "T".data "team"
      (some ([] ++ litRel ++ [] ++ litBS ++ [] ++ anchorIPH ++ [] ++
        '\x7d' :: [])) =
    ⟨0, [msgAdded],
      some ([] ++ litRel ++ [] ++ litBS ++ [] ++ anchorIPH ++ nlDT "T".data ++
        [] ++ '\x7d' :: [])⟩ :=
  ⟨by decide,
   c2_insert_once "T".data [] [] [] [] [] (by decide) (by decide) (by decide)
     (by decide) (by decide) (by decide) (by decide)⟩

/-- C9: with `IOS_TEAM_ID` unset, `team_id` defaults to the empty string and
the `team` action still runs, inserting the degenerate setting
`DEVELOPMENT_TEAM = ;` rather than failing. -/
theorem c9_empty_team_id :
    teamIdOf none = [] ∧
    nlDT (teamIdOf none) = "\t\t\t\tDEVELOPMENT_TEAM = ;\n".data ∧
    (∀ P M U V Q : List Char,
      '\x7d' ∉ M → '\x7d' ∉ U → '\x7d' ∉ V →
      (∀ i,
        i ≤ M.length + litBS.length + U.length + anchorIPH.length + V.length →
        litBS.isPrefixOf
          ((M ++ litBS ++ U ++ anchorIPH ++ V ++ '\x7d' :: Q).drop i) = true →
        i = M.length) →
      (∀ i, i ≤ U.length + anchorIPH.length + V.length →
        anchorIPH.isPrefixOf ((U ++ anchorIPH ++ V ++ '\x7d' :: Q).drop i) =
          true → i = U.length) →
      (∀ i, i < P.length →
        litRel.isPrefixOf
          ((P ++ litRel ++ M ++ litBS ++ U ++ anchorIPH ++ V ++
            '\x7d' :: Q).drop i) = false) →
      containsSub devTeamKey (U ++ anchorIPH ++ V) = false →
      runScript (teamIdOf none) "team"
        (some (P ++ litRel ++ M ++ litBS ++ U ++ anchorIPH ++ V ++
          '\x7d' :: Q)) =
      ⟨0, [msgAdded],
        some (P ++ litRel ++ M ++ litBS ++ U ++ anchorIPH ++
          nlDT (teamIdOf none) ++ V ++ '\x7d' :: Q)⟩) :=
  ⟨rfl, by decide,
   fun P M U V Q hM hU hV hBSU hMidU hRelU hNoDT =>
     runTeam_insert (teamIdOf none) P M U V Q hM hU hV hBSU hMidU hRelU hNoDT⟩

theorem c9_empty_team_id_witness :
    containsSub devTeamKey (([] : List Char) ++ anchorIPH ++ []) = false ∧
    runScript (teamIdOf none) "team"
      (some ([] ++ litRel ++ [] ++ litBS ++ [] ++ anchorIPH ++ [] ++
        '\x7d' :: [])) =
    ⟨0, [msgAdded],
      some ([] ++ litRel ++ [] ++ litBS ++ [] ++ anchorIPH ++
        nlDT (teamIdOf none) ++ [] ++ '\x7d' :: [])⟩ :=
  ⟨by decide,
   c9_empty_team_id.2.2 [] [] [] [] [] (by decide) (by decide) (by decide)
     (by decide) (by decide) (by decide) (by decide)⟩

/-- C5: for `code_sign`, when the search for a Release block containing the
exact line `DEVELOPMENT_TEAM = <team_id>;` fails, the block counts as not
located: exit 1, file unmodified.  When the block is found and its
buildSettings contain no `CODE_SIGN_STYLE`, the line
`CODE_SIGN_STYLE = Manual;` is inserted exactly once, immediately after the
team line. -/
theorem c5_code_sign (tid : List Char) :
    (∀ c : List Char, reSearch (csPattern tid) c = none →
      runScript tid "code_sign" (some c) = ⟨1, [msgNoRelease], some c⟩) ∧
    (∀ P M U V Q : List Char,
      '\x7d' ∉ M → '\x7d' ∉ U → '\x7d' ∉ V → '\x7d' ∉ tid →
      (∀ i, i ≤ M.length + litBS.length + U.length + (dtLine tid).length +
          V.length →
        litBS.isPrefixOf
          ((M ++ litBS ++ U ++ dtLine tid ++ V ++ '\x7d' :: Q).drop i) = true →
        i = M.length) →
      (∀ i, i ≤ U.length + (dtLine tid).length + V.length →
        (dtLine tid).isPrefixOf ((U ++ dtLine tid ++ V ++ '\x7d' :: Q).drop i) =
          true → i = U.length) →
      (∀ i, i < P.length →
        litRel.isPrefixOf
          ((P ++ litRel ++ M ++ litBS ++ U ++ dtLine tid ++ V ++
            '\x7d' :: Q).drop i) = false) →
      containsSub cssKey V = false →
      runScript tid "code_sign"
        (some (P ++ litRel ++ M ++ litBS ++ U ++ dtLine tid ++ V ++
          '\x7d' :: Q)) =
      ⟨0, [msgCSAdded],
        some (P ++ litRel ++ M ++ litBS ++ U ++ dtLine tid ++ nlCSS ++ V ++
          '\x7d' :: Q)⟩) := by
  constructor
  · intro c h
    have hact : runScript tid "code_sign" (some c) = runCodeSign tid c := rfl
    rw [hact]
    simp [runCodeSign, h]
  · intro P M U V Q hM hU hV htid hBSU hMidU hRelU hNoCSS
    exact runCodeSign_insert tid P M U V Q hM hU hV htid hBSU hMidU hRelU
      hNoCSS

theorem c5_code_sign_witness :
    reSearch (csPattern "T".data)
      (litRel ++ litBS ++ "DEVELOPMENT_TEAM = X;".data ++ ['\x7d']) = none ∧
    runScript "T".data "code_sign"
      (some (litRel ++ litBS ++ "DEVELOPMENT_TEAM = X;".data ++ ['\x7d'])) =
      ⟨1, [msgNoRelease],
        some (litRel ++ litBS ++ "DEVELOPMENT_TEAM = X;".data ++ ['\x7d'])⟩ ∧
    runScript "T".data "code_sign"
      (some ([] ++ litRel ++ [] ++ litBS ++ [] ++ dtLine "T".data ++ [] ++
        '\x7d' :: [])) =
    ⟨0, [msgCSAdded],
      some ([] ++ litRel ++ [] ++ litBS ++ [] ++ dtLine "T".data ++ nlCSS ++
        [] ++ '\x7d' :: [])⟩ :=
  ⟨by decide,
   (c5_code_sign "T".data).1 _ (by decide),
   (c5_code_sign "T".data).2 [] [] [] [] [] (by decide) (by decide)
     (by decide) (by decide) (by decide) (by decide) (by decide) (by decide)⟩

/-- C7: when the `team` action finds `DEVELOPMENT_TEAM` already present in
the Release block, the `re.sub` substitution is applied to the entire file
content, and that substitution rewrites every `DEVELOPMENT_TEAM = ...;`
occurrence anywhere in the string — not only the one in the Release
block. -/
theorem c7_sub_global (tid : List Char) :
    (∀ P M R Q : List Char,
      '\x7d' ∉ M → '\x7d' ∉ R →
      (∀ i, i ≤ M.length + litBS.length + R.length →
        litBS.isPrefixOf ((M ++ litBS ++ R ++ '\x7d' :: Q).drop i) = true →
        i = M.length) →
      (∀ i, i < P.length →
        litRel.isPrefixOf
          ((P ++ litRel ++ M ++ litBS ++ R ++ '\x7d' :: Q).drop i) = false) →
      containsSub devTeamKey R = true →
      runScript tid "team"
        (some (P ++ litRel ++ M ++ litBS ++ R ++ '\x7d' :: Q)) =
      ⟨0, [msgUpdated],
        some (subDevTeam tid
          (P ++ litRel ++ M ++ litBS ++ R ++ '\x7d' :: Q))⟩) ∧
    (∀ a v b w c' : List Char,
      'D' ∉ a → 'D' ∉ b → 'D' ∉ c' → ';' ∉ v → ';' ∉ w →
      subDevTeam tid (a ++ litDT ++ v ++ ';' :: b ++ litDT ++ w ++ ';' :: c') =
      a ++ litDT ++ tid ++ ';' :: b ++ litDT ++ tid ++ ';' :: c') :=
  ⟨fun P M R Q hM hR hBSU hRelU hDT =>
     runTeam_update tid P M R Q hM hR hBSU hRelU hDT,
   fun a v b w c' ha hb hc hv hw =>
     subDevTeam_replaces_all tid a v b w c' ha hb hc hv hw⟩

theorem c7_sub_global_witness :
    containsSub devTeamKey "DEVELOPMENT_TEAM = X;".data = true ∧
    runScript "T".data "team"
      (some ([] ++ litRel ++ [] ++ litBS ++ "DEVELOPMENT_TEAM = X;".data ++
        '\x7d' :: [])) =
    ⟨0, [msgUpdated],
      some (subDevTeam "T".data ([] ++ litRel ++ [] ++ litBS ++
        "DEVELOPMENT_TEAM = X;".data ++ '\x7d' :: []))⟩ ∧
    subDevTeam "T".data ("a ".data ++ litDT ++ "X".data ++
      ';' :: "b ".data ++ litDT ++ "Y".data ++ ';' :: "c".data) =
    "a ".data ++ litDT ++ "T".data ++ ';' :: "b ".data ++ litDT ++
      "T".data ++ ';' :: "c".data :=
  ⟨by decide,
   (c7_sub_global "T".data).1 [] [] "DEVELOPMENT_TEAM = X;".data []
     (by decide) (by decide) (by decide) (by decide) (by decide),
   (c7_sub_global "T".data).2 "a ".data "X".data "b ".data "Y".data "c".data
     (by decide) (by decide) (by decide) (by decide) (by decide)⟩

/-- C1 counterexample: `team` is not idempotent as claimed.  On `cexC1` the
first run inserts the team line; the second run does not report
`already exists` — it takes the update path, prints the `Updated` message,
and changes the file again (the unrelated `DEVELOPMENT_TEAM = X;` is
rewritten), so the content is not left unchanged either. -/
theorem c1_counterexample :
    (runScript "T".data "team" (some cexC1)).output = [msgAdded] ∧
    (runScript "T".data "team"
        ((runScript "T".data "team" (some cexC1)).file)).output =
      [msgUpdated] ∧
    (runScript "T".data "team"
        ((runScript "T".data "team" (some cexC1)).file)).file ≠
      (runScript "T".data "team" (some cexC1)).file := by
  refine ⟨by decide, by decide, by decide⟩

/-- C1 (amended): on canonical content, running `code_sign` twice is
idempotent — the first run inserts `CODE_SIGN_STYLE = Manual;` and the
second reports `already exists` and leaves the content unchanged.  For
`team` there is no `already exists` report on the second run: once the
Release block contains `DEVELOPMENT_TEAM`, a run takes the update path,
reports the `Updated` message, and applies the global substitution to the
whole file. -/
theorem c1_amended :
    (∀ tid P M U V Q : List Char,
      '\x7d' ∉ M → '\x7d' ∉ U → '\x7d' ∉ V → '\x7d' ∉ tid →
      (∀ i, i ≤ M.length + litBS.length + U.length + (dtLine tid).length +
          V.length →
        litBS.isPrefixOf
          ((M ++ litBS ++ U ++ dtLine tid ++ V ++ '\x7d' :: Q).drop i) = true →
        i = M.length) →
      (∀ i, i ≤ U.length + (dtLine tid).length + V.length →
        (dtLine tid).isPrefixOf ((U ++ dtLine tid ++ V ++ '\x7d' :: Q).drop i) =
          true → i = U.length) →
      (∀ i, i < P.length →
        litRel.isPrefixOf
          ((P ++ litRel ++ M ++ litBS ++ U ++ dtLine tid ++ V ++
            '\x7d' :: Q).drop i) = false) →
      containsSub cssKey V = false →
      (∀ i, i ≤ M.length + litBS.length + U.length + (dtLine tid).length +
          (nlCSS ++ V).length →
        litBS.isPrefixOf
          ((M ++ litBS ++ U ++ dtLine tid ++ (nlCSS ++ V) ++
            '\x7d' :: Q).drop i) = true → i = M.length) →
      (∀ i, i ≤ U.length + (dtLine tid).length + (nlCSS ++ V).length →
        (dtLine tid).isPrefixOf
          ((U ++ dtLine tid ++ (nlCSS ++ V) ++ '\x7d' :: Q).drop i) = true →
        i = U.length) →
      (∀ i, i < P.length →
        litRel.isPrefixOf
          ((P ++ litRel ++ M ++ litBS ++ U ++ dtLine tid ++ (nlCSS ++ V) ++
            '\x7d' :: Q).drop i) = false) →
      runScript tid "code_sign"
        (some (P ++ litRel ++ M ++ litBS ++ U ++ dtLine tid ++ V ++
          '\x7d' :: Q)) =
        ⟨0, [msgCSAdded],
          some (P ++ litRel ++ M ++ litBS ++ U ++ dtLine tid ++ nlCSS ++ V ++
            '\x7d' :: Q)⟩ ∧
      runScript tid "code_sign"
        (some (P ++ litRel ++ M ++ litBS ++ U ++ dtLine tid ++ nlCSS ++ V ++
          '\x7d' :: Q)) =
        ⟨0, [msgCSExists],
          some (P ++ litRel ++ M ++ litBS ++ U ++ dtLine tid ++ nlCSS ++ V ++
            '\x7d' :: Q)⟩) ∧
    (∀ tid P M R Q : List Char,
      '\x7d' ∉ M → '\x7d' ∉ R →
      (∀ i, i ≤ M.length + litBS.length + R.length →
        litBS.isPrefixOf ((M ++ litBS ++ R ++ '\x7d' :: Q).drop i) = true →
        i = M.length) →
      (∀ i, i < P.length →
        litRel.isPrefixOf
          ((P ++ litRel ++ M ++ litBS ++ R ++ '\x7d' :: Q).drop i) = false) →
      containsSub devTeamKey R = true →
      runScript tid "team"
        (some (P ++ litRel ++ M ++ litBS ++ R ++ '\x7d' :: Q)) =
      ⟨0, [msgUpdated],
        some (subDevTeam tid
          (P ++ litRel ++ M ++ litBS ++ R ++ '\x7d' :: Q))⟩) := by
  constructor
  · intro tid P M U V Q hM hU hV htid hBSU hMidU hRelU hNoCSS hBSU2 hMidU2
      hRelU2
    constructor
    · exact runCodeSign_insert tid P M U V Q hM hU hV htid hBSU hMidU hRelU
        hNoCSS
    · have hV2 : '\x7d' ∉ nlCSS ++ V := by
        simp only [List.mem_append, not_or]
        exact ⟨by decide, hV⟩
      have hCSS : containsSub cssKey (nlCSS ++ V) = true :=
        containsSub_append_left V (by decide)
      have h := runCodeSign_exists tid P M U (nlCSS ++ V) Q hM hU hV2 htid
        hBSU2 hMidU2 hRelU2 hCSS
      have hceq : P ++ litRel ++ M ++ litBS ++ U ++ dtLine tid ++
          (nlCSS ++ V) ++ '\x7d' :: Q =
          P ++ litRel ++ M ++ litBS ++ U ++ dtLine tid ++ nlCSS ++ V ++
          '\x7d' :: Q := by
        simp [List.append_assoc]
      rw [hceq] at h
      exact h
  · intro tid P M R Q hM hR hBSU hRelU hDT
    exact runTeam_update tid P M R Q hM hR hBSU hRelU hDT

theorem c1_amended_witness :
    (runScript "T".data "code_sign"
        (some ([] ++ litRel ++ [] ++ litBS ++ [] ++ dtLine "T".data ++ [] ++
          '\x7d' :: [])) =
      ⟨0, [msgCSAdded],
        some ([] ++ litRel ++ [] ++ litBS ++ [] ++ dtLine "T".data ++ nlCSS ++
          [] ++ '\x7d' :: [])⟩ ∧
      runScript "T".data "code_sign"
        (some ([] ++ litRel ++ [] ++ litBS ++ [] ++ dtLine "T".data ++ nlCSS ++
          [] ++ '\x7d' :: [])) =
      ⟨0, [msgCSExists],
        some ([] ++ litRel ++ [] ++ litBS ++ [] ++ dtLine "T".data ++ nlCSS ++
          [] ++ '\x7d' :: [])⟩) ∧
    runScript "T".data "team"
      (some ([] ++ litRel ++ [] ++ litBS ++ "DEVELOPMENT_TEAM = X;".data ++
        '\x7d' :: [])) =
    ⟨0, [msgUpdated],
      some (subDevTeam "T".data ([] ++ litRel ++ [] ++ litBS ++
        "DEVELOPMENT_TEAM = X;".data ++ '\x7d' :: []))⟩ :=
  ⟨c1_amended.1 "T".data [] [] [] [] [] (by decide) (by decide) (by decide)
     (by decide) (by decide) (by decide) (by decide) (by decide) (by decide)
     (by decide) (by decide),
   c1_amended.2 "T".data [] [] "DEVELOPMENT_TEAM = X;".data [] (by decide)
     (by decide) (by decide) (by decide) (by decide)⟩
